import Mathlib

/-!
Verification of the `hord/db` module of the ordhook repository
(`src/components/chainhook-event-observer/src/hord/db/mod.rs`).

The development shallowly embeds the module's data model and operations:
the `CompactedBlock` codec (hex transport around a CBOR payload), the two
compaction functions, the satoshi-point resolver loop, the sequential
post-processor of `update_hord_db`, and the inscription-table operations.
Machine integers are modelled as `Nat`; the one subtraction whose u64
wrapping matters is modelled explicitly by `sub64`.  Fallible Rust code
(`unwrap` panics) is modelled with `Option`, `none` standing for a panic.
-/

namespace Hord

/-! ## Hex transport (models the `hex` crate: `hex::encode` is lowercase,
`hex::decode` accepts both cases and fails on odd length or bad digits). -/

/-- Lowercase hex digit of a value below 16, as emitted by `hex::encode`. -/
def hexChar (n : Nat) : Char :=
  if n < 10 then Char.ofNat (48 + n) else Char.ofNat (87 + n)

/-- Value of one hex digit character, as accepted by `hex::decode`. -/
def hexDigit (c : Char) : Option Nat :=
  if 48 ≤ c.toNat ∧ c.toNat ≤ 57 then some (c.toNat - 48)
  else if 97 ≤ c.toNat ∧ c.toNat ≤ 102 then some (c.toNat - 87)
  else if 65 ≤ c.toNat ∧ c.toNat ≤ 70 then some (c.toNat - 55)
  else none

/-- Lowercase hex encoding of a byte list (`hex::encode`). -/
def hexEncodeChars : List Nat → List Char
  | [] => []
  | b :: bs => hexChar (b / 16) :: hexChar (b % 16) :: hexEncodeChars bs

/-- Hex decoding of a character list (`hex::decode`). -/
def hexDecodeChars : List Char → Option (List Nat)
  | [] => some []
  | [_] => none
  | c1 :: c2 :: rest =>
    match hexDigit c1, hexDigit c2, hexDecodeChars (rest) with
    | some hi, some lo, some tail => some ((16 * hi + lo) :: tail)
    | _, _, _ => none

/-! ## CompactedBlock data model (§ `pub struct CompactedBlock`).  The Rust
type is a newtype around `(([u8; 4], u64), Vec<([u8; 4], Vec<([u8; 4], u32,
u16, u64)>, Vec<u64>)>)`; we give the fields names. -/

/-- Compacted transaction input: `([u8; 4], u32, u16, u64)`. -/
structure TxIn where
  prev_txid_pfx : List Nat
  prev_block_height : Nat
  prev_vout : Nat
  prev_value : Nat
deriving DecidableEq, Repr

/-- Compacted non-coinbase transaction: `([u8; 4], Vec<TxIn>, Vec<u64>)`. -/
structure CTx where
  txid_pfx : List Nat
  inputs : List TxIn
  outputs : List Nat
deriving DecidableEq, Repr

/-- The compacted block tuple `(([u8; 4], u64), Vec<CTx>)`. -/
structure CompactedBlock where
  coinbase_txid_pfx : List Nat
  coinbase_value : Nat
  txs : List CTx
deriving DecidableEq, Repr

/-- Wrapping u64 subtraction: the value of `a - b` on Rust `u64` operands
(`a`, `b` below `2^64`). -/
def sub64 (a b : Nat) : Nat := (2 ^ 64 + a - b) % 2 ^ 64

/-- Wrapping u64 addition: the value of `a + b` on Rust `u64` operands. -/
def add64 (a b : Nat) : Nat := (a + b) % 2 ^ 64

/-! ## CBOR payload (models `ciborium`: `cbor!(self)` followed by
`ciborium::ser::into_writer`, and `ciborium::de::from_reader`).  Serde maps
the nested tuples and vectors to definite-length CBOR arrays and the
unsigned fields to major-type-0 integers with minimal-width heads. -/

/-- Big-endian byte string of a value, `k` bytes wide. -/
def beBytes : Nat → Nat → List Nat
  | 0, _ => []
  | k + 1, n => n / 256 ^ k :: beBytes k (n % 256 ^ k)

/-- CBOR head for major type `maj` with argument `n`, minimal width. -/
def cborHead (maj : Nat) (n : Nat) : List Nat :=
  if n < 24 then [32 * maj + n]
  else if n < 2 ^ 8 then [32 * maj + 24, n]
  else if n < 2 ^ 16 then (32 * maj + 25) :: beBytes 2 n
  else if n < 2 ^ 32 then (32 * maj + 26) :: beBytes 4 n
  else (32 * maj + 27) :: beBytes 8 n

/-- CBOR unsigned integer (major type 0). -/
def cborUInt (n : Nat) : List Nat := cborHead 0 n

/-- CBOR definite-length array head (major type 4). -/
def cborArr (len : Nat) : List Nat := cborHead 4 len

/-- Encoding of a 4-byte txid prefix field (`[u8; 4]` serializes as a
4-element array). -/
def encPfx (p : List Nat) : List Nat :=
  cborArr p.length ++ (p.map cborUInt).flatten

/-- Encoding of one compacted input (a 4-tuple). -/
def TxIn.encode (i : TxIn) : List Nat :=
  cborArr 4 ++ encPfx i.prev_txid_pfx ++ cborUInt i.prev_block_height ++
    cborUInt i.prev_vout ++ cborUInt i.prev_value

/-- Encoding of one compacted transaction (a 3-tuple). -/
def CTx.encode (t : CTx) : List Nat :=
  cborArr 3 ++ encPfx t.txid_pfx ++
    (cborArr t.inputs.length ++ (t.inputs.map TxIn.encode).flatten) ++
    (cborArr t.outputs.length ++ (t.outputs.map cborUInt).flatten)

/-- CBOR encoding of a whole `CompactedBlock` (a 2-tuple whose first
component is again a 2-tuple). -/
def CompactedBlock.encodeBytes (b : CompactedBlock) : List Nat :=
  cborArr 2 ++
    (cborArr 2 ++ encPfx b.coinbase_txid_pfx ++ cborUInt b.coinbase_value) ++
    (cborArr b.txs.length ++ (b.txs.map CTx.encode).flatten)

/-- Read `k` big-endian bytes. -/
def readBE : Nat → List Nat → Option (Nat × List Nat)
  | 0, bs => some (0, bs)
  | _ + 1, [] => none
  | k + 1, b :: bs =>
    match readBE k bs with
    | none => none
    | some (v, rest) => some (b * 256 ^ k + v, rest)

/-- Parse a CBOR head of major type `maj`, any argument width. -/
def parseHead (maj : Nat) : List Nat → Option (Nat × List Nat)
  | [] => none
  | b :: rest =>
    if b / 32 = maj then
      if b % 32 < 24 then some (b % 32, rest)
      else if b % 32 = 24 then readBE 1 rest
      else if b % 32 = 25 then readBE 2 rest
      else if b % 32 = 26 then readBE 4 rest
      else if b % 32 = 27 then readBE 8 rest
      else none
    else none

/-- Parse an unsigned integer and range-check it against the target Rust
integer type's bound (serde rejects out-of-range values). -/
def parseUIntLt (bound : Nat) (bs : List Nat) : Option (Nat × List Nat) :=
  match parseHead 0 bs with
  | none => none
  | some (v, rest) => if v < bound then some (v, rest) else none

/-- Parse exactly `n` consecutive items with the item parser `p`. -/
def parseCount (p : List Nat → Option (α × List Nat)) :
    Nat → List Nat → Option (List α × List Nat)
  | 0, bs => some ([], bs)
  | n + 1, bs =>
    match p bs with
    | none => none
    | some (a, bs1) =>
      match parseCount p n bs1 with
      | none => none
      | some (as, bs2) => some (a :: as, bs2)

/-- Parse a `[u8; 4]` field: a 4-element array of bytes. -/
def parsePfx (bs : List Nat) : Option (List Nat × List Nat) :=
  match parseHead 4 bs with
  | none => none
  | some (len, bs1) =>
    if len = 4 then parseCount (parseUIntLt 256) 4 bs1 else none

/-- Parse one compacted input 4-tuple. -/
def parseTxIn (bs : List Nat) : Option (TxIn × List Nat) :=
  match parseHead 4 bs with
  | none => none
  | some (len, bs1) =>
    if len = 4 then
      match parsePfx bs1 with
      | none => none
      | some (p, bs2) =>
        match parseUIntLt (2 ^ 32) bs2 with
        | none => none
        | some (h, bs3) =>
          match parseUIntLt (2 ^ 16) bs3 with
          | none => none
          | some (v, bs4) =>
            match parseUIntLt (2 ^ 64) bs4 with
            | none => none
            | some (value, bs5) => some (⟨p, h, v, value⟩, bs5)
    else none

/-- Parse one compacted transaction 3-tuple. -/
def parseTx (bs : List Nat) : Option (CTx × List Nat) :=
  match parseHead 4 bs with
  | none => none
  | some (len, bs1) =>
    if len = 3 then
      match parsePfx bs1 with
      | none => none
      | some (p, bs2) =>
        match parseHead 4 bs2 with
        | none => none
        | some (nIn, bs3) =>
          match parseCount parseTxIn nIn bs3 with
          | none => none
          | some (ins, bs4) =>
            match parseHead 4 bs4 with
            | none => none
            | some (nOut, bs5) =>
              match parseCount (parseUIntLt (2 ^ 64)) nOut bs5 with
              | none => none
              | some (outs, bs6) => some (⟨p, ins, outs⟩, bs6)
    else none

/-- Parse a whole `CompactedBlock` value. -/
def parseBlock (bs : List Nat) : Option (CompactedBlock × List Nat) :=
  match parseHead 4 bs with
  | none => none
  | some (len, bs1) =>
    if len = 2 then
      match parseHead 4 bs1 with
      | none => none
      | some (len2, bs2) =>
        if len2 = 2 then
          match parsePfx bs2 with
          | none => none
          | some (cb, bs3) =>
            match parseUIntLt (2 ^ 64) bs3 with
            | none => none
            | some (cbv, bs4) =>
              match parseHead 4 bs4 with
              | none => none
              | some (nTx, bs5) =>
                match parseCount parseTx nTx bs5 with
                | none => none
                | some (txs, bs6) => some (⟨cb, cbv, txs⟩, bs6)
        else none
    else none

/-- Model of `CompactedBlock::to_hex_bytes`: CBOR-encode, then lowercase
hex. -/
def CompactedBlock.to_hex_bytes (b : CompactedBlock) : String :=
  String.mk (hexEncodeChars b.encodeBytes)

/-- Model of `CompactedBlock::from_hex_bytes`: hex-decode then CBOR-parse;
`none` models the `unwrap` panic on either failure (the Rust function has
no error return).  Trailing bytes after a complete value are ignored, as by
`ciborium::de::from_reader`. -/
def CompactedBlock.from_hex_bytes (s : String) : Option CompactedBlock :=
  match hexDecodeChars s.data with
  | none => none
  | some bytes =>
    match parseBlock bytes with
    | none => none
    | some (b, _) => some b

/-! ## Wellformedness: the field bounds guaranteed by the Rust types. -/

/-- A wellformed 4-byte prefix: length 4, each entry a byte. -/
def wfPfx (p : List Nat) : Prop := p.length = 4 ∧ ∀ b ∈ p, b < 256

/-- Field bounds of a compacted input (`u32`, `u16`, `u64`). -/
def TxIn.wf (i : TxIn) : Prop :=
  wfPfx i.prev_txid_pfx ∧ i.prev_block_height < 2 ^ 32 ∧
    i.prev_vout < 2 ^ 16 ∧ i.prev_value < 2 ^ 64

/-- Field bounds of a compacted transaction (vector lengths are Rust
`usize`, below `2^64`). -/
def CTx.wf (t : CTx) : Prop :=
  wfPfx t.txid_pfx ∧ (∀ i ∈ t.inputs, i.wf) ∧ (∀ v ∈ t.outputs, v < 2 ^ 64) ∧
    t.inputs.length < 2 ^ 64 ∧ t.outputs.length < 2 ^ 64

/-- Field bounds of a compacted block. -/
def CompactedBlock.wf (b : CompactedBlock) : Prop :=
  wfPfx b.coinbase_txid_pfx ∧ b.coinbase_value < 2 ^ 64 ∧
    (∀ t ∈ b.txs, t.wf) ∧ b.txs.length < 2 ^ 64

instance : DecidablePred wfPfx := fun _ => by unfold wfPfx; infer_instance

instance : DecidablePred TxIn.wf := fun _ => by unfold TxIn.wf; infer_instance

instance : DecidablePred CTx.wf := fun _ => by unfold CTx.wf; infer_instance

instance : DecidablePred CompactedBlock.wf := fun _ => by
  unfold CompactedBlock.wf; infer_instance

/-! ## Round-trip lemmas for the codec. -/

theorem hexDigit_hexChar (n : Nat) (h : n < 16) :
    hexDigit (hexChar n) = some n := by
  interval_cases n <;> decide

theorem hexDecode_hexEncode (bs : List Nat) (h : ∀ b ∈ bs, b < 256) :
    hexDecodeChars (hexEncodeChars bs) = some bs := by
  induction bs with
  | nil => rfl
  | cons b bs ih =>
    have hb : b < 256 := h b (by simp)
    have h1 : hexDigit (hexChar (b / 16)) = some (b / 16) :=
      hexDigit_hexChar _ (by omega)
    have h2 : hexDigit (hexChar (b % 16)) = some (b % 16) :=
      hexDigit_hexChar _ (by omega)
    simp [hexEncodeChars, hexDecodeChars, h1, h2,
      ih (fun x hx => h x (by simp [hx]))]
    omega

theorem readBE_beBytes (k : Nat) : ∀ (n : Nat), n < 256 ^ k → ∀ (rest : List Nat),
    readBE k (beBytes k n ++ rest) = some (n, rest) := by
  induction k with
  | zero =>
    intro n hn rest
    have : n = 0 := by simpa using hn
    simp [this, beBytes, readBE]
  | succ k ih =>
    intro n hn rest
    have hmod : n % 256 ^ k < 256 ^ k :=
      Nat.mod_lt _ (Nat.pos_pow_of_pos _ (by norm_num))
    have step : beBytes (k + 1) n ++ rest =
        n / 256 ^ k :: (beBytes k (n % 256 ^ k) ++ rest) := by
      simp [beBytes]
    rw [step, readBE, ih _ hmod rest]
    show some (n / 256 ^ k * 256 ^ k + n % 256 ^ k, rest) = some (n, rest)
    rw [Nat.mul_comm, Nat.div_add_mod]

theorem parseHead_cborHead (maj n : Nat) (_hm : maj < 8) (hn : n < 2 ^ 64)
    (rest : List Nat) :
    parseHead maj (cborHead maj n ++ rest) = some (n, rest) := by
  have h32 : ∀ a : Nat, a < 32 →
      (32 * maj + a) / 32 = maj ∧ (32 * maj + a) % 32 = a := by
    intro a ha; omega
  unfold cborHead
  by_cases h1 : n < 24
  · obtain ⟨hd, hmod⟩ := h32 n (by omega)
    simp [h1, parseHead, hd, hmod]
  · by_cases h2 : n < 256
    · obtain ⟨hd, hmod⟩ := h32 24 (by omega)
      simp [h1, h2, parseHead, hd, hmod, readBE]
    · by_cases h3 : n < 65536
      · obtain ⟨hd, hmod⟩ := h32 25 (by omega)
        have hb : n < 256 ^ 2 := by omega
        simp [h1, h2, h3, parseHead, hd, hmod, readBE_beBytes 2 n hb rest]
      · by_cases h4 : n < 4294967296
        · obtain ⟨hd, hmod⟩ := h32 26 (by omega)
          have hb : n < 256 ^ 4 := by omega
          simp [h1, h2, h3, h4, parseHead, hd, hmod, readBE_beBytes 4 n hb rest]
        · obtain ⟨hd, hmod⟩ := h32 27 (by omega)
          have hb : n < 256 ^ 8 := by omega
          simp [h1, h2, h3, h4, parseHead, hd, hmod, readBE_beBytes 8 n hb rest]

theorem parseUIntLt_cborUInt (bound n : Nat) (hb : bound ≤ 2 ^ 64)
    (hn : n < bound) (rest : List Nat) :
    parseUIntLt bound (cborUInt n ++ rest) = some (n, rest) := by
  unfold parseUIntLt cborUInt
  rw [parseHead_cborHead 0 n (by omega) (by omega) rest]
  simp [hn]

theorem parseCount_encode {α : Type} (p : List Nat → Option (α × List Nat))
    (enc : α → List Nat) (as : List α)
    (h : ∀ a ∈ as, ∀ r, p (enc a ++ r) = some (a, r)) (rest : List Nat) :
    parseCount p as.length ((as.map enc).flatten ++ rest) = some (as, rest) := by
  induction as with
  | nil => simp [parseCount]
  | cons a as ih =>
    have hp := h a (by simp) ((as.map enc).flatten ++ rest)
    simp only [List.map_cons, List.flatten_cons, List.length_cons,
      List.append_assoc]
    simp [parseCount, hp, ih (fun x hx r => h x (by simp [hx]) r)]

theorem parsePfx_encPfx (p : List Nat) (hp : wfPfx p) (rest : List Nat) :
    parsePfx (encPfx p ++ rest) = some (p, rest) := by
  obtain ⟨hlen, hbytes⟩ := hp
  have hcount := parseCount_encode (parseUIntLt 256) cborUInt p
    (fun a ha r => parseUIntLt_cborUInt 256 a (by norm_num) (hbytes a ha) r) rest
  unfold parsePfx encPfx cborArr
  rw [hlen] at hcount ⊢
  rw [List.append_assoc, parseHead_cborHead 4 4 (by omega) (by norm_num) _]
  simp [hcount]

theorem parseTxIn_encode (i : TxIn) (hi : i.wf) (rest : List Nat) :
    parseTxIn (i.encode ++ rest) = some (i, rest) := by
  obtain ⟨hp, hh, hv, hval⟩ := hi
  simp [TxIn.encode, cborArr, List.append_assoc, parseTxIn,
    parseHead_cborHead 4 4 (by omega) (by norm_num),
    parsePfx_encPfx _ hp,
    parseUIntLt_cborUInt 4294967296 _ (by norm_num)
      (show i.prev_block_height < 4294967296 by omega),
    parseUIntLt_cborUInt 65536 _ (by norm_num)
      (show i.prev_vout < 65536 by omega),
    parseUIntLt_cborUInt 18446744073709551616 _ (by norm_num)
      (show i.prev_value < 18446744073709551616 by omega)]

theorem parseTx_encode (t : CTx) (ht : t.wf) (rest : List Nat) :
    parseTx (t.encode ++ rest) = some (t, rest) := by
  obtain ⟨hp, hins, houts, hil, hol⟩ := ht
  have hcIn := parseCount_encode parseTxIn TxIn.encode t.inputs
    (fun a ha r => parseTxIn_encode a (hins a ha) r)
  have hcOut := parseCount_encode (parseUIntLt 18446744073709551616) cborUInt
    t.outputs
    (fun a ha r => parseUIntLt_cborUInt 18446744073709551616 a (by norm_num)
      (show a < 18446744073709551616 by have := houts a ha; omega) r)
  simp [CTx.encode, cborArr, List.append_assoc, parseTx,
    parseHead_cborHead 4 3 (by omega) (by norm_num),
    parseHead_cborHead 4 t.inputs.length (by omega) (by omega),
    parseHead_cborHead 4 t.outputs.length (by omega) (by omega),
    parsePfx_encPfx _ hp, hcIn, hcOut]

theorem parseBlock_encode (b : CompactedBlock) (hb : b.wf) (rest : List Nat) :
    parseBlock (b.encodeBytes ++ rest) = some (b, rest) := by
  obtain ⟨hp, hcv, htxs, hlen⟩ := hb
  have hcTx := parseCount_encode parseTx CTx.encode b.txs
    (fun a ha r => parseTx_encode a (htxs a ha) r)
  simp [CompactedBlock.encodeBytes, cborArr, List.append_assoc, parseBlock,
    parseHead_cborHead 4 2 (by omega) (by norm_num),
    parseHead_cborHead 4 b.txs.length (by omega) (by omega),
    parsePfx_encPfx _ hp,
    parseUIntLt_cborUInt 18446744073709551616 _ (by norm_num)
      (show b.coinbase_value < 18446744073709551616 by omega), hcTx]

/-! ## All emitted bytes are real bytes (needed for the hex layer). -/

theorem beBytes_lt (k : Nat) : ∀ n, n < 256 ^ k → ∀ x ∈ beBytes k n, x < 256 := by
  induction k with
  | zero => intro n _ x hx; simp [beBytes] at hx
  | succ k ih =>
    intro n hn x hx
    simp only [beBytes, List.mem_cons] at hx
    rcases hx with rfl | hx
    · exact Nat.div_lt_of_lt_mul (by rw [← pow_succ]; exact hn)
    · exact ih _ (Nat.mod_lt _ (Nat.pos_pow_of_pos _ (by norm_num))) x hx

theorem cborHead_lt (maj n : Nat) (hm : maj < 8) (hn : n < 2 ^ 64) :
    ∀ x ∈ cborHead maj n, x < 256 := by
  intro x hx
  unfold cborHead at hx
  by_cases h1 : n < 24
  · simp [h1] at hx; omega
  · by_cases h2 : n < 256
    · simp [h1, h2] at hx
      rcases hx with rfl | rfl <;> omega
    · by_cases h3 : n < 65536
      · simp [h1, h2, h3] at hx
        rcases hx with rfl | hx
        · omega
        · exact beBytes_lt 2 n (by omega) x hx
      · by_cases h4 : n < 4294967296
        · simp [h1, h2, h3, h4] at hx
          rcases hx with rfl | hx
          · omega
          · exact beBytes_lt 4 n (by omega) x hx
        · simp [h1, h2, h3, h4] at hx
          rcases hx with rfl | hx
          · omega
          · exact beBytes_lt 8 n (by omega) x hx

theorem encPfx_lt (p : List Nat) (hp : wfPfx p) : ∀ x ∈ encPfx p, x < 256 := by
  obtain ⟨hlen, hb⟩ := hp
  intro x hx
  simp only [encPfx, cborArr, List.mem_append, List.mem_flatten,
    List.mem_map] at hx
  rcases hx with hx | ⟨l, ⟨v, hvmem, rfl⟩, hxl⟩
  · exact cborHead_lt 4 p.length (by omega) (by rw [hlen]; norm_num) x hx
  · exact cborHead_lt 0 v (by omega) (by have := hb v hvmem; omega) x hxl

theorem txInEncode_lt (i : TxIn) (hi : i.wf) : ∀ x ∈ i.encode, x < 256 := by
  obtain ⟨hp, hh, hv, hval⟩ := hi
  intro x hx
  simp only [TxIn.encode, cborArr, cborUInt, List.mem_append] at hx
  rcases hx with (((hx | hx) | hx) | hx) | hx
  · exact cborHead_lt 4 4 (by omega) (by norm_num) x hx
  · exact encPfx_lt _ hp x hx
  · exact cborHead_lt 0 _ (by omega) (by omega) x hx
  · exact cborHead_lt 0 _ (by omega) (by omega) x hx
  · exact cborHead_lt 0 _ (by omega) (by omega) x hx

theorem cTxEncode_lt (t : CTx) (ht : t.wf) : ∀ x ∈ t.encode, x < 256 := by
  obtain ⟨hp, hins, houts, hil, hol⟩ := ht
  intro x hx
  simp only [CTx.encode, cborArr, cborUInt, List.mem_append,
    List.mem_flatten, List.mem_map] at hx
  rcases hx with ((hx | hx) | hx | ⟨l, ⟨i, himem, rfl⟩, hxl⟩) |
    hx | ⟨l, ⟨v, hvmem, rfl⟩, hxl⟩
  · exact cborHead_lt 4 3 (by omega) (by norm_num) x hx
  · exact encPfx_lt _ hp x hx
  · exact cborHead_lt 4 _ (by omega) (by omega) x hx
  · exact txInEncode_lt i (hins i himem) x hxl
  · exact cborHead_lt 4 _ (by omega) (by omega) x hx
  · exact cborHead_lt 0 v (by omega) (by have := houts v hvmem; omega) x hxl

theorem CompactedBlock.encodeBytes_lt (b : CompactedBlock) (hb : b.wf) :
    ∀ x ∈ b.encodeBytes, x < 256 := by
  obtain ⟨hp, hcv, htxs, hlen⟩ := hb
  intro x hx
  simp only [CompactedBlock.encodeBytes, cborArr, cborUInt, List.mem_append,
    List.mem_flatten, List.mem_map] at hx
  rcases hx with (hx | (hx | hx) | hx) | hx | ⟨l, ⟨t, htmem, rfl⟩, hxl⟩
  · exact cborHead_lt 4 2 (by omega) (by norm_num) x hx
  · exact cborHead_lt 4 2 (by omega) (by norm_num) x hx
  · exact encPfx_lt _ hp x hx
  · exact cborHead_lt 0 _ (by omega) (by omega) x hx
  · exact cborHead_lt 4 _ (by omega) (by omega) x hx
  · exact cTxEncode_lt t (htxs t htmem) x hxl

/-- C1: for every well-formed `CompactedBlock` `x`, decoding the encoding of
`x` yields `x` again: `CompactedBlock::from_hex_bytes(x.to_hex_bytes()) == x`. -/
theorem c1_codec_roundtrip (b : CompactedBlock) (h : b.wf) :
    CompactedBlock.from_hex_bytes b.to_hex_bytes = some b := by
  unfold CompactedBlock.from_hex_bytes CompactedBlock.to_hex_bytes
  have hs : (String.mk (hexEncodeChars b.encodeBytes)).data
      = hexEncodeChars b.encodeBytes := rfl
  rw [hs, hexDecode_hexEncode _ (CompactedBlock.encodeBytes_lt b h)]
  have hparse := parseBlock_encode b h []
  rw [List.append_nil] at hparse
  simp [hparse]

/-- Sample block used to witness the round-trip at a concrete input. -/
def cExample : CompactedBlock :=
  ⟨[1, 2, 3, 4], 5000000000,
    [⟨[170, 187, 204, 221], [⟨[1, 2, 3, 4], 767429, 1, 600⟩], [25, 575]⟩]⟩

/-- Concrete instance of the C1 round-trip. -/
theorem c1_codec_roundtrip_witness :
    cExample.wf ∧
      CompactedBlock.from_hex_bytes cExample.to_hex_bytes = some cExample :=
  ⟨by decide, c1_codec_roundtrip cExample (by decide)⟩

/-! ## Compaction (C2): `CompactedBlock::from_full_block` over the raw RPC
breakdown and `CompactedBlock::from_standardized_block` over the
standardized block.  Only the fields the two functions read are modelled;
`Option`-valued fields mirror the `unwrap`ed `Option`s of the RPC type, and
a `none` result models a panic (`unwrap` / out-of-bounds index). -/

/-- Previous-output annotation of a raw input (`input.prevout`): height and
value in satoshis. -/
structure RawPrevout where
  height : Nat
  value : Nat
deriving DecidableEq, Repr

/-- Raw RPC transaction input (`tx.vin[i]`). -/
structure RawTxIn where
  txid : Option String
  vout : Option Nat
  prevout : Option RawPrevout
deriving DecidableEq, Repr

/-- Raw RPC transaction: txid hex string (no prefix), inputs, output values
in satoshis. -/
structure RawTx where
  txid : String
  vin : List RawTxIn
  vout : List Nat
deriving DecidableEq, Repr

/-- Raw RPC block breakdown (`BitcoinBlockFullBreakdown`). -/
structure RawBlock where
  height : Nat
  tx : List RawTx
deriving DecidableEq, Repr

/-- Standardized previous output (`input.previous_output`): txid is
`"0x"`-prefixed. -/
structure StdPrevOut where
  txid : String
  block_height : Nat
  vout : Nat
  value : Nat
deriving DecidableEq, Repr

/-- Standardized transaction input. -/
structure StdTxIn where
  previous_output : StdPrevOut
deriving DecidableEq, Repr

/-- Standardized transaction: `transaction_identifier.hash` is
`"0x"`-prefixed; `metadata.inputs` / `metadata.outputs`. -/
structure StdTx where
  hash : String
  inputs : List StdTxIn
  outputs : List Nat
deriving DecidableEq, Repr

/-- Standardized block (`BitcoinBlockData`). -/
structure StdBlock where
  transactions : List StdTx
deriving DecidableEq, Repr

/-- First four bytes of a decoded txid (`[txid[0], txid[1], txid[2],
txid[3]]`); `none` models the index panic on a short byte string. -/
def take4 (l : List Nat) : Option (List Nat) :=
  if 4 ≤ l.length then some (l.take 4) else none

/-- Map a fallible function over a list, failing on the first failure. -/
def mapOpt (f : α → Option β) : List α → Option (List β)
  | [] => some []
  | a :: as =>
    match f a with
    | none => none
    | some b =>
      match mapOpt f as with
      | none => none
      | some bs => some (b :: bs)

/-- Compaction of one raw input (`from_full_block`'s inner loop): the
`as u32` / `as u16` casts truncate. -/
def compactRawTxIn (i : RawTxIn) : Option TxIn :=
  match i.txid with
  | none => none
  | some t =>
    match hexDecodeChars t.data with
    | none => none
    | some bytes =>
      match take4 bytes with
      | none => none
      | some p =>
        match i.prevout, i.vout with
        | some pv, some v => some ⟨p, pv.height % 2 ^ 32, v % 2 ^ 16, pv.value⟩
        | _, _ => none

/-- Compaction of one raw non-coinbase transaction. -/
def compactRawTx (t : RawTx) : Option CTx :=
  match hexDecodeChars t.txid.data with
  | none => none
  | some bytes =>
    match take4 bytes with
    | none => none
    | some p =>
      match mapOpt compactRawTxIn t.vin with
      | none => none
      | some ins => some ⟨p, ins, t.vout⟩

/-- Model of `CompactedBlock::from_full_block`. -/
def CompactedBlock.from_full_block (b : RawBlock) : Option CompactedBlock :=
  match b.tx with
  | [] => none
  | tx0 :: rest =>
    match hexDecodeChars tx0.txid.data with
    | none => none
    | some bytes =>
      match take4 bytes with
      | none => none
      | some cb =>
        match mapOpt compactRawTx rest with
        | none => none
        | some txs => some ⟨cb, tx0.vout.foldl (· + ·) 0, txs⟩

/-- Compaction of one standardized input: the codec strips the `0x` by
slicing from character 2. -/
def compactStdTxIn (i : StdTxIn) : Option TxIn :=
  match hexDecodeChars (i.previous_output.txid.data.drop 2) with
  | none => none
  | some bytes =>
    match take4 bytes with
    | none => none
    | some p =>
      some ⟨p, i.previous_output.block_height % 2 ^ 32,
        i.previous_output.vout % 2 ^ 16, i.previous_output.value⟩

/-- Compaction of one standardized non-coinbase transaction. -/
def compactStdTx (t : StdTx) : Option CTx :=
  match hexDecodeChars (t.hash.data.drop 2) with
  | none => none
  | some bytes =>
    match take4 bytes with
    | none => none
    | some p =>
      match mapOpt compactStdTxIn t.inputs with
      | none => none
      | some ins => some ⟨p, ins, t.outputs⟩

/-- Model of `CompactedBlock::from_standardized_block`. -/
def CompactedBlock.from_standardized_block (b : StdBlock) : Option CompactedBlock :=
  match b.transactions with
  | [] => none
  | tx0 :: rest =>
    match hexDecodeChars (tx0.hash.data.drop 2) with
    | none => none
    | some bytes =>
      match take4 bytes with
      | none => none
      | some cb =>
        match mapOpt compactStdTx rest with
        | none => none
        | some txs => some ⟨cb, tx0.outputs.foldl (· + ·) 0, txs⟩

/-- Correspondence of a raw input and a standardized input derived from the
same source: same txid (the standardized one `0x`-prefixed), height, vout
and value. -/
def InCorr (r : RawTxIn) (s : StdTxIn) : Prop :=
  ∃ t pv v, r.txid = some t ∧ r.prevout = some pv ∧ r.vout = some v ∧
    s.previous_output.txid = "0x" ++ t ∧
    s.previous_output.block_height = pv.height ∧
    s.previous_output.vout = v ∧
    s.previous_output.value = pv.value

/-- Correspondence of a raw and a standardized non-coinbase transaction. -/
def TxCorr (r : RawTx) (s : StdTx) : Prop :=
  s.hash = "0x" ++ r.txid ∧ List.Forall₂ InCorr r.vin s.inputs ∧
    s.outputs = r.vout

/-- Correspondence of a raw block and the standardized block derived from
the same source.  The coinbase needs only its txid and output values (its
inputs are never read); every other transaction corresponds fully. -/
def BlockCorr (r : RawBlock) (s : StdBlock) : Prop :=
  match r.tx, s.transactions with
  | [], [] => True
  | r0 :: rrest, s0 :: srest =>
    s0.hash = "0x" ++ r0.txid ∧ s0.outputs = r0.vout ∧
      List.Forall₂ TxCorr rrest srest
  | _, _ => False

theorem data_drop_0x (t : String) : ("0x" ++ t).data.drop 2 = t.data := by
  have h : ("0x" ++ t).data = '0' :: 'x' :: t.data := by
    rw [String.data_append]; rfl
  rw [h]
  rfl

theorem compactTxIn_eq (ri : RawTxIn) (si : StdTxIn) (h : InCorr ri si) :
    compactRawTxIn ri = compactStdTxIn si := by
  obtain ⟨t, pv, v, ht, hpv, hv, hsh, hbh, hvo, hval⟩ := h
  simp only [compactRawTxIn, compactStdTxIn, ht, hpv, hv, hsh, hbh, hvo,
    hval, data_drop_0x]

theorem mapOpt_txIn_eq : ∀ (as : List RawTxIn) (bs : List StdTxIn),
    List.Forall₂ InCorr as bs →
    mapOpt compactRawTxIn as = mapOpt compactStdTxIn bs := by
  intro as bs hf
  induction hf with
  | nil => rfl
  | cons hhead _ ih => simp only [mapOpt, compactTxIn_eq _ _ hhead, ih]

theorem compactTx_eq (rt : RawTx) (st : StdTx) (h : TxCorr rt st) :
    compactRawTx rt = compactStdTx st := by
  obtain ⟨hsh, hins, houts⟩ := h
  simp only [compactRawTx, compactStdTx, hsh, houts, data_drop_0x,
    mapOpt_txIn_eq _ _ hins]

theorem mapOpt_tx_eq : ∀ (as : List RawTx) (bs : List StdTx),
    List.Forall₂ TxCorr as bs →
    mapOpt compactRawTx as = mapOpt compactStdTx bs := by
  intro as bs hf
  induction hf with
  | nil => rfl
  | cons hhead _ ih => simp only [mapOpt, compactTx_eq _ _ hhead, ih]

/-- C2: compacting a raw RPC block and the standardized block derived from
the same source yields identical `CompactedBlock` values. -/
theorem c2_compaction_equiv (r : RawBlock) (s : StdBlock) (h : BlockCorr r s) :
    CompactedBlock.from_full_block r = CompactedBlock.from_standardized_block s := by
  unfold BlockCorr at h
  cases hr : r.tx with
  | nil =>
    cases hs : s.transactions with
    | nil => simp [CompactedBlock.from_full_block,
        CompactedBlock.from_standardized_block, hr, hs]
    | cons s0 srest => rw [hr, hs] at h; simp at h
  | cons r0 rrest =>
    cases hs : s.transactions with
    | nil => rw [hr, hs] at h; simp at h
    | cons s0 srest =>
      rw [hr, hs] at h
      obtain ⟨hsh, houts, htail⟩ := h
      have hmap : mapOpt compactRawTx rrest = mapOpt compactStdTx srest :=
        mapOpt_tx_eq _ _ htail
      simp only [CompactedBlock.from_full_block,
        CompactedBlock.from_standardized_block, hr, hs, hsh, houts,
        data_drop_0x, hmap]

/-- Sample raw block used to witness C2. -/
def rawEx : RawBlock :=
  ⟨800000, [⟨"aabbccdd", [], [625000000]⟩,
    ⟨"11223344", [⟨some "aabbccdd", some 0, some ⟨700, 1000⟩⟩], [900]⟩]⟩

/-- Standardized form of `rawEx`. -/
def stdEx : StdBlock :=
  ⟨[⟨"0xaabbccdd", [], [625000000]⟩,
    ⟨"0x11223344", [⟨⟨"0xaabbccdd", 700, 0, 1000⟩⟩], [900]⟩]⟩

/-- Concrete raw/standardized pair witnessing C2. -/
theorem c2_compaction_equiv_witness :
    BlockCorr rawEx stdEx ∧
      CompactedBlock.from_full_block rawEx
        = CompactedBlock.from_standardized_block stdEx := by
  have hcorr : BlockCorr rawEx stdEx := by
    refine ⟨rfl, rfl, List.Forall₂.cons ⟨rfl, ?_, rfl⟩ List.Forall₂.nil⟩
    exact List.Forall₂.cons
      ⟨"aabbccdd", ⟨700, 1000⟩, 0, rfl, rfl, rfl, rfl, rfl, rfl, rfl⟩
      List.Forall₂.nil
  exact ⟨hcorr, c2_compaction_equiv rawEx stdEx hcorr⟩

/-! ## Satoshi-point resolver
(`retrieve_satoshi_point_using_local_storage`).  The store is modelled as
an association list height ↦ decoded `CompactedBlock` (the `blocks` table,
`id` being the primary key); lookup models
`find_compacted_block_at_block_height`.  The outer `loop` is modelled by a
step function plus explicit fuel; running out of fuel (`diverged`) models
an infinite loop. -/

/-- Mutable state of the resolver loop: `ordinal_offset`,
`ordinal_block_number` and `tx_cursor`. -/
structure RState where
  ordinal_offset : Nat
  ordinal_block_number : Nat
  cursor_txid : List Nat
  cursor_vout : Nat
deriving DecidableEq, Repr

/-- Lookup of the compacted block stored at a height (models
`find_compacted_block_at_block_height`: `SELECT compacted_bytes FROM blocks
WHERE id = ?`, first row). -/
def find_compacted_block_at_block_height (h : Nat)
    (store : List (Nat × CompactedBlock)) : Option CompactedBlock :=
  match store.find? (fun e => e.1 == h) with
  | none => none
  | some e => some e.2

/-- Sum of a transaction's input values as the program computes it:
`total_in += input_value` on u64, wrapping. -/
def totalIn (tx : CTx) : Nat :=
  tx.inputs.foldl (fun a i => add64 a i.prev_value) 0

/-- Sum of a transaction's output values as the program computes it:
`total_out += output_value` on u64, wrapping. -/
def totalOut (tx : CTx) : Nat := tx.outputs.foldl add64 0

/-- The fee computation `let fee = total_in - total_out;` on u64. -/
def txFee (tx : CTx) : Nat := sub64 (totalIn tx) (totalOut tx)

/-- The accumulator `accumulated_fees += fee` run over a list of
transactions in block order, on u64 (wrapping). -/
def accFees (txs : List CTx) : Nat :=
  txs.foldl (fun a tx => add64 a (txFee tx)) 0

/-- Inner input walk shared by both branches: accumulate `sats_in` (u64,
wrapping) and select the first input reaching `target`, updating the three
state variables; when no input reaches the target the state is left
unchanged (the source loop simply ends). -/
def selectInput (target : Nat) (s : RState) : Nat → List TxIn → RState
  | _, [] => s
  | satsIn, i :: rest =>
    if add64 satsIn i.prev_value ≥ target then
      ⟨sub64 target (sub64 (add64 satsIn i.prev_value) i.prev_value),
        i.prev_block_height, i.prev_txid_pfx, i.prev_vout⟩
    else selectInput target s (add64 satsIn i.prev_value) rest

/-- Coinbase fee-descent walk: accumulate fees until `accumulated_fees >
cut_off` (u64, wrapping), then select within that transaction's inputs
with target `total_out`; when no transaction passes the cut-off the state
is left unchanged. -/
def feeDescent (cutOff : Nat) (s : RState) : Nat → List CTx → RState
  | _, [] => s
  | acc, tx :: rest =>
    if add64 acc (txFee tx) > cutOff then
      selectInput (totalOut tx) s 0 tx.inputs
    else feeDescent cutOff s (add64 acc (txFee tx)) rest

/-- Non-coinbase branch: scan the block's transactions for the cursor's
txid prefix; each match selects an input with target
`sum(outputs[0..vout]) + ordinal_offset` (u64, wrapping) computed from the
current state (the source keeps scanning after a match, so a later
collision re-updates the already-updated state). -/
def scanTxs (txid : List Nat) (s : RState) : List CTx → RState
  | [] => s
  | tx :: rest =>
    if tx.txid_pfx = txid then
      scanTxs txid
        (selectInput (add64 ((tx.outputs.take s.cursor_vout).foldl add64 0)
          s.ordinal_offset) s 0 tx.inputs) rest
    else scanTxs txid s rest

/-- One iteration of the resolver's outer `loop`. -/
inductive RStep where
  | err (h : Nat)
  | done (s : RState)
  | next (s : RState)
deriving DecidableEq, Repr

/-- Body of the resolver's outer `loop`: fetch the block, test the coinbase
exit condition, otherwise descend through fees or follow the cursor's
transaction. -/
def rstep (store : List (Nat × CompactedBlock)) (s : RState) : RStep :=
  match find_compacted_block_at_block_height s.ordinal_block_number store with
  | none => .err s.ordinal_block_number
  | some res =>
    if res.coinbase_txid_pfx = s.cursor_txid then
      if s.ordinal_offset < res.coinbase_value then .done s
      else .next (feeDescent (sub64 s.ordinal_offset res.coinbase_value) s 0
        res.txs)
    else .next (scanTxs s.cursor_txid s res.txs)

/-- Outcome of a resolver run. -/
inductive RResult where
  | ok (v : Nat × Nat × Nat)
  | err (msg : String)
  | diverged
deriving DecidableEq, Repr

/-- Modelled from the spec: `Height::starting_sat` is not part of this
module (it lives in the vendored `ord` crate); the spec defines it as "the
ordinal number of the first satoshi minted at height h (defined by the
Bitcoin supply schedule)".  The subsidy halves every 210000 blocks starting
from 50 BTC. -/
def subsidy (h : Nat) : Nat := 5000000000 >>> (h / 210000)

/-- Modelled from the spec: sum of the subsidies of all heights below `h`. -/
def starting_sat (h : Nat) : Nat :=
  (List.range h).foldl (fun acc i => acc + subsidy i) 0

/-- The resolver's outer `loop` with explicit fuel; on `break` it returns
`(ordinal_block_number, ordinal_offset, starting_sat + ordinal_offset)`
exactly as the source's epilogue does. -/
def resolveLoop (store : List (Nat × CompactedBlock)) :
    Nat → RState → RResult
  | 0, _ => .diverged
  | fuel + 1, s =>
    match rstep store s with
    | .err h => .err ("unable to retrieve block ##" ++ toString h)
    | .done s' => .ok (s'.ordinal_block_number, s'.ordinal_offset,
        starting_sat s'.ordinal_block_number + s'.ordinal_offset)
    | .next s' => resolveLoop store fuel s'

/-- Model of `retrieve_satoshi_point_using_local_storage`: decode the
transaction hash (dropping the `0x`), take its first four bytes, and run
the loop from `(0, block_index as u32, (txid, 0))`.  `none` models the
`unwrap` panic on a malformed hash. -/
def retrieve_satoshi_point_using_local_storage
    (store : List (Nat × CompactedBlock)) (block_index : Nat)
    (tx_hash : String) (fuel : Nat) : Option RResult :=
  match hexDecodeChars (tx_hash.data.drop 2) with
  | none => none
  | some bytes =>
    match take4 bytes with
    | none => none
    | some txid => some (resolveLoop store fuel ⟨0, block_index % 2 ^ 32, txid, 0⟩)

/-- C3: for a height whose compacted block is in the store, resolving a
transaction whose 4-byte txid prefix equals that block's coinbase prefix
returns `(h, 0, starting_sat h)` on the first iteration. -/
theorem c3_coinbase_identity (store : List (Nat × CompactedBlock))
    (h : Nat) (hash : String) (b : CompactedBlock) (bytes : List Nat)
    (fuel : Nat) (hh : h < 2 ^ 32)
    (hfind : find_compacted_block_at_block_height h store = some b)
    (hdec : hexDecodeChars (hash.data.drop 2) = some bytes)
    (htake : take4 bytes = some b.coinbase_txid_pfx)
    (hcb : 0 < b.coinbase_value) (hfuel : 0 < fuel) :
    retrieve_satoshi_point_using_local_storage store h hash fuel
      = some (.ok (h, 0, starting_sat h)) := by
  obtain ⟨fuel, rfl⟩ : ∃ k, fuel = k + 1 := ⟨fuel - 1, by omega⟩
  unfold retrieve_satoshi_point_using_local_storage
  rw [hdec]
  simp only [htake]
  have hmod : h % 4294967296 = h := Nat.mod_eq_of_lt (by omega)
  simp [resolveLoop, rstep, hmod, hfind, hcb]

/-- Concrete instance of C3 at height 5. -/
theorem c3_coinbase_identity_witness :
    retrieve_satoshi_point_using_local_storage
        [(5, ⟨[1, 2, 3, 4], 100, []⟩)] 5 "0x01020304" 1
      = some (.ok (5, 0, starting_sat 5)) :=
  c3_coinbase_identity _ 5 "0x01020304" ⟨[1, 2, 3, 4], 100, []⟩ [1, 2, 3, 4] 1
    (by norm_num) (by rfl) (by rfl) (by rfl) (by norm_num) (by norm_num)

/-! ## Resolver invariant (C4), orphan behaviour (C6), fees (C8). -/

theorem selectInput_cases (target : Nat) (s : RState) :
    ∀ (satsIn : Nat) (ins : List TxIn),
      selectInput target s satsIn ins = s ∨
        ∃ i ∈ ins, (selectInput target s satsIn ins).ordinal_block_number
          = i.prev_block_height := by
  intro satsIn ins
  induction ins generalizing satsIn with
  | nil => left; rfl
  | cons i rest ih =>
    by_cases hc : add64 satsIn i.prev_value ≥ target
    · right
      exact ⟨i, by simp, by simp [selectInput, hc]⟩
    · rcases ih (add64 satsIn i.prev_value) with heq | ⟨j, hj, hres⟩
      · left; simp [selectInput, hc, heq]
      · right
        exact ⟨j, by simp [hj], by simp [selectInput, hc, hres]⟩

theorem feeDescent_cases (cutOff : Nat) (s : RState) :
    ∀ (acc : Nat) (txs : List CTx),
      feeDescent cutOff s acc txs = s ∨
        ∃ tx ∈ txs, ∃ i ∈ tx.inputs,
          (feeDescent cutOff s acc txs).ordinal_block_number
            = i.prev_block_height := by
  intro acc txs
  induction txs generalizing acc with
  | nil => left; rfl
  | cons tx rest ih =>
    by_cases hc : add64 acc (txFee tx) > cutOff
    · rcases selectInput_cases (totalOut tx) s 0 tx.inputs with
        heq | ⟨i, hi, hres⟩
      · left; simp [feeDescent, hc, heq]
      · right
        exact ⟨tx, by simp, i, hi, by simp [feeDescent, hc, hres]⟩
    · rcases ih (add64 acc (txFee tx)) with heq | ⟨tx', htx', i, hi, hres⟩
      · left; simp [feeDescent, hc, heq]
      · right
        exact ⟨tx', by simp [htx'], i, hi, by simp [feeDescent, hc, hres]⟩

theorem scanTxs_cases (txid : List Nat) :
    ∀ (txs : List CTx) (s : RState),
      scanTxs txid s txs = s ∨
        ∃ tx ∈ txs, ∃ i ∈ tx.inputs,
          (scanTxs txid s txs).ordinal_block_number = i.prev_block_height := by
  intro txs
  induction txs with
  | nil => intro s; left; rfl
  | cons tx rest ih =>
    intro s
    by_cases hc : tx.txid_pfx = txid
    · rcases ih (selectInput (add64 ((tx.outputs.take s.cursor_vout).foldl
          add64 0) s.ordinal_offset) s 0 tx.inputs) with
        heq | ⟨tx', htx', i, hi, hres⟩
      · rcases selectInput_cases (add64 ((tx.outputs.take s.cursor_vout).foldl
            add64 0) s.ordinal_offset) s 0 tx.inputs with
          heq2 | ⟨i, hi, hres2⟩
        · left
          simp only [scanTxs, if_pos hc]
          rw [heq, heq2]
        · right
          refine ⟨tx, by simp, i, hi, ?_⟩
          simp only [scanTxs, if_pos hc, heq]
          exact hres2
      · right
        exact ⟨tx', by simp [htx'], i, hi, by simp [scanTxs, hc, hres]⟩
    · rcases ih s with heq | ⟨tx', htx', i, hi, hres⟩
      · left; simp [scanTxs, hc, heq]
      · right
        exact ⟨tx', by simp [htx'], i, hi, by simp [scanTxs, hc, hres]⟩

theorem find_block_mem (h : Nat) (store : List (Nat × CompactedBlock))
    (b : CompactedBlock)
    (hf : find_compacted_block_at_block_height h store = some b) :
    (h, b) ∈ store := by
  unfold find_compacted_block_at_block_height at hf
  cases hfind : store.find? (fun e => e.1 == h) with
  | none => rw [hfind] at hf; simp at hf
  | some e =>
    rw [hfind] at hf
    simp at hf
    have hmem := List.mem_of_find?_eq_some hfind
    have hp := List.find?_some hfind
    simp at hp
    have he : e = (h, b) := by
      cases e
      simp at hp hf
      simp [hp, hf]
    rw [he] at hmem
    exact hmem

/-- Precondition of C4: every input of every stored compacted block
references a strictly earlier block. -/
def inputsReferEarlier (store : List (Nat × CompactedBlock)) : Prop :=
  ∀ e ∈ store, ∀ tx ∈ e.2.txs, ∀ i ∈ tx.inputs, i.prev_block_height < e.1

instance : DecidablePred inputsReferEarlier := fun _ => by
  unfold inputsReferEarlier; infer_instance

/-- C4 (amended): under the precondition, a non-returning iteration either
leaves the resolver state unchanged or strictly decreases
`ordinal_block_number`; the loop terminates whenever no iteration repeats
its state. -/
theorem c4_resolver_decrease (store : List (Nat × CompactedBlock))
    (hpre : inputsReferEarlier store) :
    (∀ s s', rstep store s = .next s' →
      s' = s ∨ s'.ordinal_block_number < s.ordinal_block_number) ∧
    ((∀ s s', rstep store s = .next s' → s' ≠ s) →
      ∀ s fuel, s.ordinal_block_number < fuel →
        resolveLoop store fuel s ≠ .diverged) := by
  have hsome : ∀ (s : RState) (res : CompactedBlock),
      find_compacted_block_at_block_height s.ordinal_block_number store
        = some res →
      rstep store s =
        if res.coinbase_txid_pfx = s.cursor_txid then
          if s.ordinal_offset < res.coinbase_value then .done s
          else .next (feeDescent (sub64 s.ordinal_offset res.coinbase_value)
            s 0 res.txs)
        else .next (scanTxs s.cursor_txid s res.txs) := by
    intro s res hf
    unfold rstep
    rw [hf]
  have hdi : ∀ s s', rstep store s = .next s' →
      s' = s ∨ s'.ordinal_block_number < s.ordinal_block_number := by
    intro s s' hst
    cases hf : find_compacted_block_at_block_height
        s.ordinal_block_number store with
    | none => unfold rstep at hst; rw [hf] at hst; simp at hst
    | some res =>
      rw [hsome s res hf] at hst
      have hmem := find_block_mem _ _ _ hf
      have hblk : ∀ tx ∈ res.txs, ∀ i ∈ tx.inputs,
          i.prev_block_height < s.ordinal_block_number :=
        fun tx htx i hi => hpre _ hmem tx htx i hi
      by_cases hcoin : res.coinbase_txid_pfx = s.cursor_txid
      · rw [if_pos hcoin] at hst
        by_cases hlt : s.ordinal_offset < res.coinbase_value
        · rw [if_pos hlt] at hst; simp at hst
        · rw [if_neg hlt] at hst
          simp at hst
          rcases feeDescent_cases (sub64 s.ordinal_offset res.coinbase_value)
              s 0 res.txs with heq | ⟨tx, htx, i, hi, hres⟩
          · left; rw [← hst, heq]
          · right; rw [← hst, hres]; exact hblk tx htx i hi
      · rw [if_neg hcoin] at hst
        simp at hst
        rcases scanTxs_cases s.cursor_txid res.txs s with
          heq | ⟨tx, htx, i, hi, hres⟩
        · left; rw [← hst, heq]
        · right; rw [← hst, hres]; exact hblk tx htx i hi
  refine ⟨hdi, ?_⟩
  intro hprog s fuel
  induction fuel generalizing s with
  | zero => intro h0; omega
  | succ fuel ih =>
    intro hlt
    cases hst : rstep store s with
    | err hh => simp [resolveLoop, hst]
    | done s' => simp [resolveLoop, hst]
    | next s' =>
      have hne := hprog s s' hst
      rcases hdi s s' hst with heq | hltb
      · exact absurd heq hne
      · have hrw : resolveLoop store (fuel + 1) s = resolveLoop store fuel s' := by
          simp [resolveLoop, hst]
        rw [hrw]
        exact ih s' (by omega)

/-- Witness for C4's amended statement at the empty store. -/
theorem c4_resolver_decrease_witness :
    inputsReferEarlier [] ∧
      ((∀ s s', rstep [] s = .next s' →
        s' = s ∨ s'.ordinal_block_number < s.ordinal_block_number) ∧
      ((∀ s s', rstep [] s = .next s' → s' ≠ s) →
        ∀ s fuel, s.ordinal_block_number < fuel →
          resolveLoop [] fuel s ≠ .diverged)) :=
  ⟨by simp [inputsReferEarlier],
    c4_resolver_decrease [] (by simp [inputsReferEarlier])⟩

/-- Store on which the original C4 claim fails. -/
def c4Store : List (Nat × CompactedBlock) := [(1, ⟨[0, 0, 0, 0], 50, []⟩)]

/-- Resolver state whose cursor matches nothing in `c4Store`'s block 1. -/
def c4State : RState := ⟨0, 1, [1, 1, 1, 1], 0⟩

/-- C4 counterexample: the precondition holds, the iteration neither
returns nor decreases `ordinal_block_number` (the state repeats), and the
loop does not terminate. -/
theorem c4_counterexample :
    inputsReferEarlier c4Store ∧ rstep c4Store c4State = .next c4State ∧
      resolveLoop c4Store 100 c4State = .diverged :=
  ⟨by decide, by decide, by decide⟩

/-- Store with one stored block whose only transaction does not match the
cursor prefix `[1, 1, 1, 1]`. -/
def c6Store : List (Nat × CompactedBlock) :=
  [(1, ⟨[0, 0, 0, 0], 50, [⟨[2, 2, 2, 2], [⟨[9, 9, 9, 9], 0, 0, 10⟩], [10]⟩]⟩)]

/-- Cursor referencing a transaction absent from the stored block. -/
def c6State : RState := ⟨0, 1, [1, 1, 1, 1], 0⟩

/-- C6: when no transaction of the fetched block matches the cursor's txid
prefix, the resolver re-enters the loop with an unchanged state and
therefore never returns — it loops forever instead of failing with an
`OrphanReference` error. -/
theorem c6_no_match_loops_forever :
    rstep c6Store c6State = .next c6State ∧
      ∀ fuel, resolveLoop c6Store fuel c6State = .diverged := by
  have hstep : rstep c6Store c6State = .next c6State := by decide
  refine ⟨hstep, ?_⟩
  intro fuel
  induction fuel with
  | zero => rfl
  | succ fuel ih => simp [resolveLoop, hstep, ih]

theorem foldl_add64_eq_sum (l : List Nat) : ∀ a, a + l.sum < 2 ^ 64 →
    l.foldl add64 a = a + l.sum := by
  induction l with
  | nil => intro a _; simp
  | cons x xs ih =>
    intro a ha
    simp only [List.foldl_cons, List.sum_cons] at ha ⊢
    have hax : add64 a x = a + x := by unfold add64; omega
    rw [hax, ih (a + x) (by omega)]
    omega

theorem foldl_add64_val (ins : List TxIn) : ∀ a,
    a + (ins.map TxIn.prev_value).sum < 2 ^ 64 →
    ins.foldl (fun x i => add64 x i.prev_value) a
      = a + (ins.map TxIn.prev_value).sum := by
  induction ins with
  | nil => intro a _; simp
  | cons i rest ih =>
    intro a ha
    simp only [List.foldl_cons, List.map_cons, List.sum_cons] at ha ⊢
    have hax : add64 a i.prev_value = a + i.prev_value := by
      unfold add64; omega
    rw [hax, ih (a + i.prev_value) (by omega)]
    omega

theorem foldl_add64_fee (txs : List CTx) : ∀ a,
    a + (txs.map txFee).sum < 2 ^ 64 →
    txs.foldl (fun x tx => add64 x (txFee tx)) a
      = a + (txs.map txFee).sum := by
  induction txs with
  | nil => intro a _; simp
  | cons t ts ih =>
    intro a ha
    simp only [List.foldl_cons, List.map_cons, List.sum_cons] at ha ⊢
    have hax : add64 a (txFee t) = a + txFee t := by unfold add64; omega
    rw [hax, ih (a + txFee t) (by omega)]
    omega

theorem sum_take_le (l : List Nat) (n : Nat) : (l.take n).sum ≤ l.sum := by
  conv_rhs => rw [← List.take_append_drop n l]
  rw [List.sum_append]
  omega

/-- Transaction whose true input sum is `2^64` (two inputs of `2^63`): the
wrapped `total_in` accumulator is 0 and the fee subtraction underflows even
though `sum(inputs.value) ≥ sum(outputs.value)` holds. -/
def c8WrapTx : CTx :=
  ⟨[1, 1, 1, 1],
    [⟨[2, 2, 2, 2], 0, 0, 9223372036854775808⟩,
      ⟨[3, 3, 3, 3], 0, 0, 9223372036854775808⟩], [1]⟩

/-- Transaction with a single `2^63` input, no outputs: its fee `2^63` is
computed without wrapping, but two of them wrap `accumulated_fees`. -/
def c8BigFeeTx : CTx :=
  ⟨[4, 4, 4, 4], [⟨[5, 5, 5, 5], 0, 0, 9223372036854775808⟩], []⟩

/-- C8 counterexample: `c8WrapTx` satisfies the claim's precondition
(`sum(inputs.value) ≥ sum(outputs.value)`), yet the program's wrapped
`total_in` makes the fee subtraction wrap (`fee + total_out ≠ total_in`);
and over two copies of `c8BigFeeTx` — the precondition again holding —
the `accumulated_fees` accumulator wraps and strictly decreases. -/
theorem c8_counterexample :
    (c8WrapTx.outputs.sum ≤ (c8WrapTx.inputs.map TxIn.prev_value).sum ∧
      txFee c8WrapTx + totalOut c8WrapTx ≠ totalIn c8WrapTx) ∧
      ((∀ tx ∈ [c8BigFeeTx, c8BigFeeTx],
          tx.outputs.sum ≤ (tx.inputs.map TxIn.prev_value).sum) ∧
        accFees ([c8BigFeeTx, c8BigFeeTx].take 2)
          < accFees ([c8BigFeeTx, c8BigFeeTx].take 1)) := by
  decide

/-- C8 (amended): when every transaction's true input sum dominates its
output sum and fits in u64, the fee subtraction never wraps —
`fee + total_out = total_in` exactly — and, provided the block's total
fees also fit in u64, the `accumulated_fees` accumulator is
non-decreasing in block order. -/
theorem c8_fee_no_underflow (txs : List CTx)
    (h : ∀ tx ∈ txs, tx.outputs.sum ≤ (tx.inputs.map TxIn.prev_value).sum ∧
      (tx.inputs.map TxIn.prev_value).sum < 2 ^ 64)
    (hacc : (txs.map txFee).sum < 2 ^ 64) :
    (∀ tx ∈ txs, txFee tx + totalOut tx = totalIn tx) ∧
      ∀ n, accFees (txs.take n) ≤ accFees (txs.take (n + 1)) := by
  constructor
  · intro tx htx
    obtain ⟨hle, hlt⟩ := h tx htx
    have hin : totalIn tx = (tx.inputs.map TxIn.prev_value).sum := by
      unfold totalIn
      rw [foldl_add64_val tx.inputs 0 (by omega)]
      omega
    have hout : totalOut tx = tx.outputs.sum := by
      unfold totalOut
      rw [foldl_add64_eq_sum tx.outputs 0 (by omega)]
      omega
    unfold txFee sub64
    rw [hin, hout]
    omega
  · have hpre : ∀ m, ((txs.take m).map txFee).sum < 2 ^ 64 := by
      intro m
      have h2 : (txs.take m).map txFee = (txs.map txFee).take m :=
        List.map_take ..
      rw [h2]
      have h3 := sum_take_le (txs.map txFee) m
      omega
    have hacc' : ∀ m, accFees (txs.take m) = ((txs.take m).map txFee).sum := by
      intro m
      unfold accFees
      rw [foldl_add64_fee _ 0 (by have := hpre m; omega)]
      omega
    intro n
    rw [hacc' n, hacc' (n + 1)]
    rw [List.take_succ, List.map_append, List.sum_append]
    exact Nat.le_add_right _ _

/-- Sample transaction with fee 10 used to witness C8. -/
def c8Tx : CTx := ⟨[1, 1, 1, 1], [⟨[2, 2, 2, 2], 0, 0, 100⟩], [90]⟩

/-- Concrete instance of the amended C8. -/
theorem c8_fee_no_underflow_witness :
    ((∀ tx ∈ [c8Tx], tx.outputs.sum ≤ (tx.inputs.map TxIn.prev_value).sum ∧
        (tx.inputs.map TxIn.prev_value).sum < 2 ^ 64) ∧
      ([c8Tx].map txFee).sum < 2 ^ 64) ∧
      ((∀ tx ∈ [c8Tx], txFee tx + totalOut tx = totalIn tx) ∧
        ∀ n, accFees ([c8Tx].take n) ≤ accFees ([c8Tx].take (n + 1))) :=
  ⟨⟨by decide, by decide⟩, c8_fee_no_underflow [c8Tx] (by decide) (by decide)⟩

/-! ## Sequential post-processor of `update_hord_db` (the "Inscriptions
indexing" thread).  Blocks are identified by their heights: the payloads
play no role in which heights reach the augmentation collaborator.  The
collaborators (`standardize_bitcoin_block`,
`update_hord_db_and_augment_bitcoin_block`) are modelled as always
succeeding; `log` records the heights handed to them in invocation
order. -/

/-- The mainnet activation height (`first_inscription_block_height`). -/
def first_inscription_block_height : Nat := 767430

/-- State of the post-processing worker: `cursor`, the key set of `inbox`,
and the heights augmented so far in invocation order. -/
structure PostState where
  cursor : Nat
  inbox : List Nat
  log : List Nat
deriving DecidableEq, Repr

/-- `HashMap::insert` on the key set: inserting an existing height replaces
its payload, leaving the key set unchanged. -/
def insertH (h : Nat) (inbox : List Nat) : List Nat :=
  if h ∈ inbox then inbox else h :: inbox

/-- The drain loop `while let Some(next_block) = inbox.remove(&cursor)`,
driven by fuel; `inbox.length` steps always suffice because every round
removes one inbox entry. -/
def drainAux : Nat → Nat → List Nat → List Nat → PostState
  | 0, cursor, inbox, log => ⟨cursor, inbox, log⟩
  | fuel + 1, cursor, inbox, log =>
    if cursor ∈ inbox then
      drainAux fuel (cursor + 1) (inbox.erase cursor) (log ++ [cursor])
    else ⟨cursor, inbox, log⟩

/-- The drain loop with just enough fuel. -/
def drain (cursor : Nat) (inbox : List Nat) (log : List Nat) : PostState :=
  drainAux inbox.length cursor inbox log

/-- Handling of one received raw block: discard below the activation
height, buffer, and drain when the received height is the cursor. -/
def postStep (s : PostState) (h : Nat) : PostState :=
  if h < first_inscription_block_height then s
  else
    if h ≠ s.cursor then ⟨s.cursor, insertH h s.inbox, s.log⟩
    else drain s.cursor (insertH h s.inbox) s.log

/-- The worker over a finite arrival sequence, from the initial state. -/
def postProcess (hs : List Nat) : PostState :=
  hs.foldl postStep ⟨first_inscription_block_height, [], []⟩

theorem drainAux_spec (fuel : Nat) : ∀ (cursor : Nat) (inbox log : List Nat),
    inbox.length ≤ fuel →
    ∃ n ib, drainAux fuel cursor inbox log
        = ⟨cursor + n, ib, log ++ List.range' cursor n⟩ ∧
      cursor + n ∉ ib ∧ ∀ x ∈ ib, x ∈ inbox := by
  induction fuel with
  | zero =>
    intro cursor inbox log hlen
    have : inbox = [] := List.eq_nil_of_length_eq_zero (by omega)
    subst this
    exact ⟨0, [], by simp [drainAux], by simp, by simp⟩
  | succ fuel ih =>
    intro cursor inbox log hlen
    by_cases hc : cursor ∈ inbox
    · have hlen' : (inbox.erase cursor).length ≤ fuel := by
        have := List.length_erase_of_mem hc
        omega
      obtain ⟨n, ib, heq, hnot, hsub⟩ :=
        ih (cursor + 1) (inbox.erase cursor) (log ++ [cursor]) hlen'
      refine ⟨n + 1, ib, ?_, ?_, ?_⟩
      · rw [drainAux, if_pos hc, heq]
        have hrange : List.range' cursor (n + 1)
            = cursor :: List.range' (cursor + 1) n := rfl
        simp [hrange]
        omega
      · have : cursor + (n + 1) = cursor + 1 + n := by omega
        rw [this]
        exact hnot
      · exact fun x hx => List.mem_of_mem_erase (hsub x hx)
    · exact ⟨0, inbox, by simp [drainAux, hc], by simpa using hc, by simp⟩

/-- Invariant of the post-processing worker: the invocation log is exactly
the contiguous range from the activation height up to the cursor, and the
cursor is never buffered. -/
def PInv (s : PostState) : Prop :=
  s.log = List.range' first_inscription_block_height
      (s.cursor - first_inscription_block_height) ∧
    first_inscription_block_height ≤ s.cursor ∧ s.cursor ∉ s.inbox

theorem postStep_inv (s : PostState) (h : Nat) (hs : PInv s) :
    PInv (postStep s h) := by
  obtain ⟨hlog, hge, hnot⟩ := hs
  unfold postStep
  by_cases h1 : h < first_inscription_block_height
  · rw [if_pos h1]; exact ⟨hlog, hge, hnot⟩
  · rw [if_neg h1]
    by_cases h2 : h ≠ s.cursor
    · rw [if_pos h2]
      refine ⟨hlog, hge, ?_⟩
      unfold insertH
      by_cases h3 : h ∈ s.inbox
      · rw [if_pos h3]; exact hnot
      · rw [if_neg h3]
        simp
        exact ⟨fun he => h2 he.symm, hnot⟩
    · rw [if_neg h2]
      obtain ⟨n, ib, heq, hnib, _⟩ := drainAux_spec (insertH h s.inbox).length
        s.cursor (insertH h s.inbox) s.log (le_refl _)
      unfold drain
      rw [heq]
      constructor
      · show s.log ++ List.range' s.cursor n
          = List.range' first_inscription_block_height
            (s.cursor + n - first_inscription_block_height)
        rw [hlog]
        have hkey := List.range'_append first_inscription_block_height
          (s.cursor - first_inscription_block_height) n 1
        rw [one_mul] at hkey
        rw [show first_inscription_block_height +
          (s.cursor - first_inscription_block_height) = s.cursor from by omega]
          at hkey
        have harg : n + (s.cursor - first_inscription_block_height)
            = s.cursor + n - first_inscription_block_height := by omega
        rw [hkey, harg]
      constructor
      · show first_inscription_block_height ≤ s.cursor + n
        omega
      · exact hnib

theorem postProcess_inv (hs : List Nat) : PInv (postProcess hs) := by
  unfold postProcess
  have hgen : ∀ (l : List Nat) (s : PostState), PInv s →
      PInv (l.foldl postStep s) := by
    intro l
    induction l with
    | nil => intro s h; exact h
    | cons a l ih => intro s h; exact ih _ (postStep_inv s a h)
  exact hgen hs _ ⟨by simp, le_refl _, by simp⟩

/-- C5: over any finite arrival sequence, the augmentation collaborator is
invoked exactly for the contiguous ascending range of heights from the
activation height 767430 up to the final cursor (so at most once per
height, never below 767430, never past a gap); in particular the arrivals
767428, 767429, 767430 trigger augmentation only for 767430. -/
theorem c5_monotonic_cursor :
    (∀ hs : List Nat, (postProcess hs).log =
      List.range' first_inscription_block_height
        ((postProcess hs).cursor - first_inscription_block_height)) ∧
      (postProcess [767428, 767429, 767430]).log = [767430] := by
  constructor
  · intro hs
    exact (postProcess_inv hs).1
  · decide

/-! ## Decode failure behaviour (C7). -/

/-- C7 counterexample: on the invalid hex input `"zz"` the decoder panics
(`hex::decode(..).unwrap()`, modelled `none`); no `CorruptBlob` error value
exists — `from_hex_bytes` returns a bare `CompactedBlock` and can only
panic on bad input. -/
theorem c7_counterexample : CompactedBlock.from_hex_bytes "zz" = none := by
  decide

/-- C7 (amended): on any input that is invalid hex, or whose bytes do not
parse as a `CompactedBlock`, `from_hex_bytes` panics (modelled `none`) —
it never returns a block for such input. -/
theorem c7_decode_invalid_panics (s : String)
    (h : hexDecodeChars s.data = none ∨
      ∃ bs, hexDecodeChars s.data = some bs ∧ parseBlock bs = none) :
    CompactedBlock.from_hex_bytes s = none := by
  unfold CompactedBlock.from_hex_bytes
  rcases h with h | ⟨bs, h1, h2⟩
  · simp [h]
  · simp [h1, h2]

/-- Concrete instance of the amended C7. -/
theorem c7_decode_invalid_panics_witness :
    (hexDecodeChars "zz".data = none ∨
      ∃ bs, hexDecodeChars "zz".data = some bs ∧ parseBlock bs = none) ∧
      CompactedBlock.from_hex_bytes "zz" = none :=
  ⟨Or.inl (by decide), c7_decode_invalid_panics "zz" (Or.inl (by decide))⟩

/-! ## Inscription table (C9, C10).  Rows model the `inscriptions` schema
of `initialize_hord_db`; SQL row mutation and queries are modelled
list-wise, ordering clauses by an insertion sort on the requested key. -/

/-- One row of the `inscriptions` table. -/
structure InscriptionRow where
  inscription_id : String
  block_height : Nat
  block_hash : String
  outpoint_to_watch : String
  ordinal_number : Nat
  inscription_number : Nat
  offset : Nat
deriving DecidableEq, Repr

/-- Insert into a list sorted by `key`, keeping it sorted. -/
def insertSortedBy (key : α → Nat) (a : α) : List α → List α
  | [] => [a]
  | b :: bs =>
    if key a ≤ key b then a :: b :: bs else b :: insertSortedBy key a bs

/-- Sort by `key` ascending (models an `ORDER BY ... ASC` clause). -/
def sortBy (key : α → Nat) (l : List α) : List α :=
  l.foldr (insertSortedBy key) []

/-- Columns of the `inscriptions` table created by `initialize_hord_db`. -/
def inscriptionsTableColumns : List String :=
  ["inscription_id", "block_height", "block_hash", "outpoint_to_watch",
    "ordinal_number", "inscription_number", "offset"]

/-- Columns selected by `find_all_inscriptions`'s query
(`SELECT inscription_id, inscription_number, ordinal_number, block_number
FROM inscriptions ORDER BY inscription_number ASC`). -/
def findAllInscriptionsColumns : List String :=
  ["inscription_id", "inscription_number", "ordinal_number", "block_number"]

/-- Model of `find_all_inscriptions`: preparing the statement fails unless
every selected column exists in the table, and the `.unwrap()` then panics
(modelled `none`); otherwise rows would be returned ordered by
`inscription_number`. -/
def find_all_inscriptions (rows : List InscriptionRow) :
    Option (List (String × Nat × Nat × Nat)) :=
  if ∀ c ∈ findAllInscriptionsColumns, c ∈ inscriptionsTableColumns then
    some ((sortBy (fun r => r.inscription_number) rows).map
      (fun r => (r.inscription_id, r.inscription_number, r.ordinal_number,
        r.block_height)))
  else none

/-- C9: the query of `find_all_inscriptions` selects `block_number`, a
column the `inscriptions` schema does not define (the table has
`block_height`), so statement preparation fails and the function panics on
every store instead of returning the rows ordered by
`inscription_number`. -/
theorem c9_find_all_selects_missing_column :
    "block_number" ∈ findAllInscriptionsColumns ∧
      "block_number" ∉ inscriptionsTableColumns ∧
      ∀ rows, find_all_inscriptions rows = none := by
  refine ⟨by decide, by decide, ?_⟩
  intro rows
  unfold find_all_inscriptions
  rw [if_neg (by decide)]

/-- Model of `update_transfered_inscription`: `UPDATE inscriptions SET
outpoint_to_watch = ?, offset = ? WHERE inscription_id = ?`. -/
def update_transfered_inscription (inscription_id : String)
    (outpoint_post_transfer : String) (offset : Nat)
    (rows : List InscriptionRow) : List InscriptionRow :=
  rows.map (fun r =>
    if r.inscription_id = inscription_id then
      { r with outpoint_to_watch := outpoint_post_transfer, offset := offset }
    else r)

/-- Model of `find_inscriptions_at_wached_outpoint`:
`SELECT inscription_id, inscription_number, ordinal_number, offset FROM
inscriptions WHERE outpoint_to_watch = ? ORDER BY offset ASC`. -/
def find_inscriptions_at_wached_outpoint (outpoint : String)
    (rows : List InscriptionRow) : List (String × Nat × Nat × Nat) :=
  (sortBy (fun r => r.offset)
      (rows.filter (fun r => r.outpoint_to_watch = outpoint))).map
    (fun r => (r.inscription_id, r.inscription_number, r.ordinal_number,
      r.offset))

theorem mem_insertSortedBy (key : α → Nat) (a x : α) :
    ∀ l, x ∈ insertSortedBy key a l ↔ x = a ∨ x ∈ l := by
  intro l
  induction l with
  | nil => simp [insertSortedBy]
  | cons b bs ih =>
    by_cases hc : key a ≤ key b
    · simp [insertSortedBy, hc]
    · simp [insertSortedBy, hc, ih]
      tauto

theorem mem_sortBy (key : α → Nat) (x : α) :
    ∀ l, x ∈ sortBy key l ↔ x ∈ l := by
  intro l
  induction l with
  | nil => simp [sortBy]
  | cons b bs ih =>
    simp only [sortBy, List.foldr_cons] at ih ⊢
    rw [mem_insertSortedBy, ih]
    simp

/-- C10: updating a transferred inscription rewrites exactly the
`outpoint_to_watch` and `offset` columns of the rows with the given id and
leaves every other row untouched; consequently the old outpoint no longer
lists the inscription and the new outpoint lists it with the new offset. -/
theorem c10_transfer_frame (rows rows' : List InscriptionRow)
    (r : InscriptionRow) (o2 : String) (off : Nat) (hmem : r ∈ rows)
    (hne : r.outpoint_to_watch ≠ o2)
    (hrows' : rows' = update_transfered_inscription r.inscription_id o2 off
      rows) :
    ({ r with outpoint_to_watch := o2, offset := off } ∈ rows') ∧
      (∀ r' ∈ rows, r'.inscription_id ≠ r.inscription_id → r' ∈ rows') ∧
      (∀ t ∈ find_inscriptions_at_wached_outpoint r.outpoint_to_watch rows',
        t.1 ≠ r.inscription_id) ∧
      ((r.inscription_id, r.inscription_number, r.ordinal_number, off) ∈
        find_inscriptions_at_wached_outpoint o2 rows') := by
  subst hrows'
  refine ⟨?_, ?_, ?_, ?_⟩
  · unfold update_transfered_inscription
    have := List.mem_map_of_mem (fun r' : InscriptionRow =>
      if r'.inscription_id = r.inscription_id then
        { r' with outpoint_to_watch := o2, offset := off } else r') hmem
    simpa using this
  · intro r' hr' hid
    unfold update_transfered_inscription
    have := List.mem_map_of_mem (fun r'' : InscriptionRow =>
      if r''.inscription_id = r.inscription_id then
        { r'' with outpoint_to_watch := o2, offset := off } else r'') hr'
    simpa [if_neg hid] using this
  · intro t ht
    unfold find_inscriptions_at_wached_outpoint at ht
    simp only [List.mem_map] at ht
    obtain ⟨rr, hrr, rfl⟩ := ht
    rw [mem_sortBy] at hrr
    simp only [List.mem_filter, decide_eq_true_eq] at hrr
    obtain ⟨hrrmem, hrro⟩ := hrr
    unfold update_transfered_inscription at hrrmem
    simp only [List.mem_map] at hrrmem
    obtain ⟨r0, hr0, hr0eq⟩ := hrrmem
    by_cases hid : r0.inscription_id = r.inscription_id
    · rw [if_pos hid] at hr0eq
      rw [← hr0eq] at hrro
      simp at hrro
      exact absurd hrro.symm hne
    · rw [if_neg hid] at hr0eq
      rw [← hr0eq]
      exact hid
  · unfold find_inscriptions_at_wached_outpoint
    simp only [List.mem_map]
    refine ⟨{ r with outpoint_to_watch := o2, offset := off }, ?_, rfl⟩
    rw [mem_sortBy]
    simp only [List.mem_filter, decide_eq_true_eq]
    constructor
    · unfold update_transfered_inscription
      have := List.mem_map_of_mem (fun r'' : InscriptionRow =>
        if r''.inscription_id = r.inscription_id then
          { r'' with outpoint_to_watch := o2, offset := off } else r'') hmem
      simpa using this
    · trivial

/-- Sample row witnessing C10. -/
def c10Row : InscriptionRow := ⟨"i1", 767430, "0xabc", "O1", 9000, 1, 0⟩

/-- Concrete instance of C10: transfer `i1` from outpoint `O1` to `O2`
with offset 42. -/
theorem c10_transfer_frame_witness :
    (c10Row ∈ [c10Row]) ∧ (c10Row.outpoint_to_watch ≠ "O2") ∧
      (({ c10Row with outpoint_to_watch := "O2", offset := 42 } ∈
          update_transfered_inscription c10Row.inscription_id "O2" 42
            [c10Row]) ∧
        (∀ r' ∈ [c10Row], r'.inscription_id ≠ c10Row.inscription_id →
          r' ∈ update_transfered_inscription c10Row.inscription_id "O2" 42
            [c10Row]) ∧
        (∀ t ∈ find_inscriptions_at_wached_outpoint c10Row.outpoint_to_watch
            (update_transfered_inscription c10Row.inscription_id "O2" 42
              [c10Row]),
          t.1 ≠ c10Row.inscription_id) ∧
        ((c10Row.inscription_id, c10Row.inscription_number,
            c10Row.ordinal_number, 42) ∈
          find_inscriptions_at_wached_outpoint "O2"
            (update_transfered_inscription c10Row.inscription_id "O2" 42
              [c10Row]))) :=
  ⟨by decide, by decide,
    c10_transfer_frame [c10Row] _ c10Row "O2" 42 (by decide) (by decide) rfl⟩

end Hord
